import Mathlib

/-!
Verification of the binary-search primitives of dtcmp
(src/dtcmp_search_binary.c).

Shallow embedding choices:
* C `int` values are modelled as unbounded `Int` (window bounds, indices,
  comparator results); target counts and output-array positions are `Nat`.
* Keys are modelled as `Int` and the pluggable ternary comparator as the
  natural ternary comparison `cmpKeys`; a sequence of records is a `List Int`
  of keys, and the comparator result at probe index `i` for target `t` is
  `listCmp t S i`.  The search loops only observe the comparator through a
  function `c : Int → Int` from probe index to comparator result, which keeps
  them faithful to the source for arbitrary comparators.
* The C `while` loops are embedded as fuel-indexed recursive functions
  returning `Option`; `none` means the fuel was exhausted while the loop was
  still running.  The wrappers supply fuel `(high + 1 - low).toNat`, one unit
  per element of the window, which is proved sufficient whenever the loop
  terminates at all.
* C truncating division `/2` is `cDiv2`; C `& 0x1` on an `int` is the
  Euclidean remainder `% 2` (the low bit of a two's-complement integer).
* The batched search writes into an `int` output array through a pointer;
  the embedding instead returns the list of writes `(position, value)` in
  program order.  Pointer offsets `targets + k`, `indicies + k` of the C
  recursion are modelled by the absolute offset argument `off`.
-/

/-- Modelled from the spec: the uniform success status code returned by every
operation.  The header that defines the numeric value of `DTCMP_SUCCESS` is
not part of the sources under verification; the spec states that all defined
operations return one uniform success indicator, and the batched routine in
the source returns the literal `0`, so the model fixes the value `0`. -/
def DTCMP_SUCCESS : Int := 0

/-- Ternary key comparison: negative when `t < k`, zero when `t = k`,
positive when `t > k`.  Models `dtcmp_op_eval` for the key order under which
sequences are sorted. -/
def cmpKeys (t k : Int) : Int :=
  if t < k then -1 else if k < t then 1 else 0

/-- Comparator view of a sequence: result of comparing target `t` with the
record at probe index `i` of `S`. -/
def listCmp (t : Int) (S : List Int) : Int → Int :=
  fun i => cmpKeys t (S.getD i.toNat 0)

/-- C truncating (round toward zero) division by two, as computed by `/ 2`
on a C `int`. -/
def cDiv2 (a : Int) : Int :=
  if 0 ≤ a then a / 2 else -((-a) / 2)

/-- The `while` loop of `DTCMP_Search_local_low_binary`.  State: current
`low`, `high` and the `flag`; returns the final `flag` and final `high`
(the values from which the function computes its outputs), or `none` if the
fuel ran out before the loop finished. -/
def lowLoop (c : Int → Int) : Nat → Int → Int → Bool → Option (Bool × Int)
  | 0, low, high, flag => if low ≤ high then none else some (flag, high)
  | fuel + 1, low, high, flag =>
    if low ≤ high then
      let mid := cDiv2 (high + low)
      let result := c mid
      if result = 0 then
        if low = mid then some (true, mid) else lowLoop c fuel low mid true
      else if result < 0 then
        lowLoop c fuel low (mid - 1) flag
      else
        lowLoop c fuel (mid + 1) high flag
    else some (flag, high)

/-- `DTCMP_Search_local_low_binary`: returns `(status, flag, index)`;
`index = high` when found, `high + 1` otherwise. -/
def DTCMP_Search_local_low_binary (c : Int → Int) (low high : Int) :
    Option (Int × Bool × Int) :=
  (lowLoop c (high + 1 - low).toNat low high false).map fun r =>
    (DTCMP_SUCCESS, r.1, if r.1 then r.2 else r.2 + 1)

/-- The `while` loop of `DTCMP_Search_local_high_binary`; returns the final
`flag` and final `low`. -/
def highLoop (c : Int → Int) : Nat → Int → Int → Bool → Option (Bool × Int)
  | 0, low, high, flag => if low ≤ high then none else some (flag, low)
  | fuel + 1, low, high, flag =>
    if low ≤ high then
      let mid := cDiv2 (high + low) + (high - low) % 2
      let result := c mid
      if result = 0 then
        if mid = high then some (true, mid) else highLoop c fuel mid high true
      else if result < 0 then
        highLoop c fuel low (mid - 1) flag
      else
        highLoop c fuel (mid + 1) high flag
    else some (flag, low)

/-- `DTCMP_Search_local_high_binary`: returns `(status, flag, index)`;
`index = low` when found, `low - 1` otherwise. -/
def DTCMP_Search_local_high_binary (c : Int → Int) (low high : Int) :
    Option (Int × Bool × Int) :=
  (highLoop c (high + 1 - low).toNat low high false).map fun r =>
    (DTCMP_SUCCESS, r.1, if r.1 then r.2 else r.2 - 1)

/-- Recursion of `DTCMP_Search_local_low_list_binary`, made structural on an
extra fuel argument so that it evaluates by reduction; `fuel ≥ num + 1`
always suffices (each recursive call strictly decreases `num`, and the body
only recurses under the guards `0 < mid`, `0 < num - (mid + 1)` of the
source).  `cfun t i` is the comparator result for target key `t` against the
record at index `i`; `ts` is the (unbounded) array of target keys, `num` the
number of targets of this call and `off` the absolute offset of this call's
`targets`/`indicies` pointers.  Returns the status and the list of writes
`(absolute position, value)` into the output array, in program order,
mirroring the source exactly: no `num == 0` guard, the median result stored
unclamped, the clamped index used as the right boundary of the left
recursion and the left boundary of the right recursion. -/
def lowListAux (cfun : Int → Int → Int) (ts : Nat → Int) :
    Nat → Nat → Nat → Int → Int → Option (Int × List (Nat × Int))
  | 0, _, _, _, _ => none
  | fuel + 1, num, off, low, high =>
    let mid := num / 2
    match DTCMP_Search_local_low_binary (cfun (ts (off + mid))) low high with
    | none => none
    | some r =>
      let index := if high < r.2.2 then high else r.2.2
      let left :=
        if 0 < mid then lowListAux cfun ts fuel mid off low index
        else some (0, [])
      let right :=
        if 0 < num - (mid + 1) then
          lowListAux cfun ts fuel (num - (mid + 1)) (off + mid + 1) index high
        else some (0, [])
      match left, right with
      | some l, some rr => some (0, (off + mid, r.2.2) :: (l.2 ++ rr.2))
      | _, _ => none

/-- `DTCMP_Search_local_low_list_binary` with `targets`/`indicies` pointer
offset `off`; the fuel `num + 1` is sufficient for the whole recursion. -/
def DTCMP_Search_local_low_list_binary (cfun : Int → Int → Int)
    (ts : Nat → Int) (num off : Nat) (low high : Int) :
    Option (Int × List (Nat × Int)) :=
  lowListAux cfun ts (num + 1) num off low high

/-- Replay a list of writes on an array state. -/
def applyWrites (log : List (Nat × Int)) (a : Nat → Int) : Nat → Int :=
  log.foldl (fun a e => Function.update a e.1 e.2) a

/-- Specification-level lower bound scan: the least `i ∈ [low, low + n)`
with `p i = true`, and `low + n` if there is none. -/
def lbScan (p : Int → Bool) (low : Int) : Nat → Int
  | 0 => low
  | n + 1 => if p low then low else lbScan p (low + 1) n

/-- Specification-level lower-bound index of target `t` in `S` over the
window `[low, high]`: the smallest `i` there with `S[i] ≥ t`, and `high + 1`
if there is none. -/
def lowerBoundIndex (t : Int) (S : List Int) (low high : Int) : Int :=
  lbScan (fun i => decide (t ≤ S.getD i.toNat 0)) low (high + 1 - low).toNat

/-- Specification-level upper bound scan: the greatest `i ∈ (high - n, high]`
with `p i = true`, and `high - n` if there is none. -/
def ubScan (p : Int → Bool) (high : Int) : Nat → Int
  | 0 => high
  | n + 1 => if p high then high else ubScan p (high - 1) n

/-- Specification-level upper-bound index of target `t` in `S` over the
window `[low, high]`: the largest `i` there with `S[i] ≤ t`, and `low - 1`
if there is none. -/
def upperBoundIndex (t : Int) (S : List Int) (low high : Int) : Int :=
  ubScan (fun i => decide (S.getD i.toNat 0 ≤ t)) high (high + 1 - low).toNat

/-- Monotonicity of the comparator results along a window: once the result
is non-positive (resp. negative) it stays so to the right.  This is exactly
what the sortedness of the sequence provides to the search loops. -/
def CmpMono (c : Int → Int) (low0 high0 : Int) : Prop :=
  ∀ i j, low0 ≤ i → i ≤ j → j ≤ high0 →
    (c i ≤ 0 → c j ≤ 0) ∧ (c i < 0 → c j < 0)

/-- Instrumented variant of `lowLoop` that also records, in order, every
probe index `mid` passed to the comparator. -/
def lowLoopTrace (c : Int → Int) :
    Nat → Int → Int → Bool → List Int × Option (Bool × Int)
  | 0, low, high, flag => ([], if low ≤ high then none else some (flag, high))
  | fuel + 1, low, high, flag =>
    if low ≤ high then
      let mid := cDiv2 (high + low)
      let result := c mid
      if result = 0 then
        if low = mid then ([mid], some (true, mid))
        else
          let t := lowLoopTrace c fuel low mid true
          (mid :: t.1, t.2)
      else if result < 0 then
        let t := lowLoopTrace c fuel low (mid - 1) flag
        (mid :: t.1, t.2)
      else
        let t := lowLoopTrace c fuel (mid + 1) high flag
        (mid :: t.1, t.2)
    else ([], some (flag, high))

/-- Instrumented variant of `highLoop` recording every probe index. -/
def highLoopTrace (c : Int → Int) :
    Nat → Int → Int → Bool → List Int × Option (Bool × Int)
  | 0, low, high, flag => ([], if low ≤ high then none else some (flag, low))
  | fuel + 1, low, high, flag =>
    if low ≤ high then
      let mid := cDiv2 (high + low) + (high - low) % 2
      let result := c mid
      if result = 0 then
        if mid = high then ([mid], some (true, mid))
        else
          let t := highLoopTrace c fuel mid high true
          (mid :: t.1, t.2)
      else if result < 0 then
        let t := highLoopTrace c fuel low (mid - 1) flag
        (mid :: t.1, t.2)
      else
        let t := highLoopTrace c fuel (mid + 1) high flag
        (mid :: t.1, t.2)
    else ([], some (flag, low))

/-- Probe indices of a `DTCMP_Search_local_low_binary` call. -/
def lowProbes (c : Int → Int) (low high : Int) : List Int :=
  (lowLoopTrace c (high + 1 - low).toNat low high false).1

/-- Probe indices of a `DTCMP_Search_local_high_binary` call. -/
def highProbes (c : Int → Int) (low high : Int) : List Int :=
  (highLoopTrace c (high + 1 - low).toNat low high false).1

/-! ### Arithmetic facts about the midpoint computations -/

theorem cDiv2_nonneg_eq (a : Int) (h : 0 ≤ a) : cDiv2 a = a / 2 := if_pos h

/-- Bounds for the lower-search midpoint on a window with non-negative
bounds. -/
theorem lowMid_bounds (low high : Int) (h0 : 0 ≤ low) (hlh : low ≤ high) :
    low ≤ cDiv2 (high + low) ∧ cDiv2 (high + low) ≤ high ∧
      (low < high → cDiv2 (high + low) < high) := by
  rw [cDiv2_nonneg_eq _ (by omega)]
  omega

/-- Bounds for the upper-search midpoint on a window with non-negative
bounds. -/
theorem highMid_bounds (low high : Int) (h0 : 0 ≤ low) (hlh : low ≤ high) :
    low ≤ cDiv2 (high + low) + (high - low) % 2 ∧
      cDiv2 (high + low) + (high - low) % 2 ≤ high ∧
      (low < high → low < cDiv2 (high + low) + (high - low) % 2) := by
  rw [cDiv2_nonneg_eq _ (by omega)]
  omega

/-! ### One-step unfolding of the loops -/

theorem lowLoop_succ (c : Int → Int) (fuel : Nat) (low high : Int)
    (flag : Bool) (h : low ≤ high) :
    lowLoop c (fuel + 1) low high flag =
      if c (cDiv2 (high + low)) = 0 then
        if low = cDiv2 (high + low) then some (true, cDiv2 (high + low))
        else lowLoop c fuel low (cDiv2 (high + low)) true
      else if c (cDiv2 (high + low)) < 0 then
        lowLoop c fuel low (cDiv2 (high + low) - 1) flag
      else lowLoop c fuel (cDiv2 (high + low) + 1) high flag := by
  simp [lowLoop, h]

theorem lowLoop_exit (c : Int → Int) (fuel : Nat) (low high : Int)
    (flag : Bool) (h : high < low) :
    lowLoop c fuel low high flag = some (flag, high) := by
  have hn : ¬ low ≤ high := by omega
  cases fuel <;> simp [lowLoop, hn]

theorem highLoop_succ (c : Int → Int) (fuel : Nat) (low high : Int)
    (flag : Bool) (h : low ≤ high) :
    highLoop c (fuel + 1) low high flag =
      if c (cDiv2 (high + low) + (high - low) % 2) = 0 then
        if cDiv2 (high + low) + (high - low) % 2 = high then
          some (true, cDiv2 (high + low) + (high - low) % 2)
        else highLoop c fuel (cDiv2 (high + low) + (high - low) % 2) high true
      else if c (cDiv2 (high + low) + (high - low) % 2) < 0 then
        highLoop c fuel low (cDiv2 (high + low) + (high - low) % 2 - 1) flag
      else highLoop c fuel (cDiv2 (high + low) + (high - low) % 2 + 1) high flag := by
  simp [highLoop, h]

theorem highLoop_exit (c : Int → Int) (fuel : Nat) (low high : Int)
    (flag : Bool) (h : high < low) :
    highLoop c fuel low high flag = some (flag, low) := by
  have hn : ¬ low ≤ high := by omega
  cases fuel <;> simp [highLoop, hn]

/-! ### Termination of the loops with an arbitrary comparator -/

/-- With a non-negative lower bound, the lower-search loop finishes within
one fuel unit per window element, for any comparator, and its final `high`
stays in `[low - 1, high]`. -/
theorem lowLoop_some (c : Int → Int) :
    ∀ (fuel : Nat) (low high : Int) (flag : Bool), 0 ≤ low → low - 1 ≤ high →
      (high + 1 - low).toNat ≤ fuel →
      ∃ F H, lowLoop c fuel low high flag = some (F, H) ∧
        low - 1 ≤ H ∧ H ≤ high := by
  intro fuel
  induction fuel with
  | zero =>
    intro low high flag h0 hlh hf
    refine ⟨flag, high, lowLoop_exit c 0 low high flag (by omega), by omega,
      le_refl _⟩
  | succ n ih =>
    intro low high flag h0 hlh hf
    by_cases hcase : low ≤ high
    · obtain ⟨hm1, hm2, hm3⟩ := lowMid_bounds low high h0 hcase
      rw [lowLoop_succ c n low high flag hcase]
      rcases lt_trichotomy (c (cDiv2 (high + low))) 0 with hneg | hzero | hpos
      · rw [if_neg (by omega), if_pos hneg]
        obtain ⟨F, H, heq, hb1, hb2⟩ :=
          ih low (cDiv2 (high + low) - 1) flag h0 (by omega) (by omega)
        exact ⟨F, H, heq, by omega, by omega⟩
      · rw [if_pos hzero]
        by_cases hlm : low = cDiv2 (high + low)
        · rw [if_pos hlm]
          exact ⟨true, cDiv2 (high + low), rfl, by omega, by omega⟩
        · rw [if_neg hlm]
          have hmh : cDiv2 (high + low) < high := hm3 (by omega)
          obtain ⟨F, H, heq, hb1, hb2⟩ :=
            ih low (cDiv2 (high + low)) true h0 (by omega) (by omega)
          exact ⟨F, H, heq, by omega, by omega⟩
      · rw [if_neg (by omega), if_neg (by omega)]
        obtain ⟨F, H, heq, hb1, hb2⟩ :=
          ih (cDiv2 (high + low) + 1) high flag (by omega) (by omega) (by omega)
        exact ⟨F, H, heq, by omega, by omega⟩
    · exact ⟨flag, high, lowLoop_exit c (n + 1) low high flag (by omega),
        by omega, le_refl _⟩

/-- With a non-negative lower bound, the upper-search loop finishes within
one fuel unit per window element, for any comparator, and its final `low`
stays in `[low, high + 1]`. -/
theorem highLoop_some (c : Int → Int) :
    ∀ (fuel : Nat) (low high : Int) (flag : Bool), 0 ≤ low → low - 1 ≤ high →
      (high + 1 - low).toNat ≤ fuel →
      ∃ F L, highLoop c fuel low high flag = some (F, L) ∧
        low ≤ L ∧ L ≤ high + 1 := by
  intro fuel
  induction fuel with
  | zero =>
    intro low high flag h0 hlh hf
    refine ⟨flag, low, highLoop_exit c 0 low high flag (by omega), le_refl _,
      by omega⟩
  | succ n ih =>
    intro low high flag h0 hlh hf
    by_cases hcase : low ≤ high
    · obtain ⟨hm1, hm2, hm3⟩ := highMid_bounds low high h0 hcase
      rw [highLoop_succ c n low high flag hcase]
      rcases lt_trichotomy (c (cDiv2 (high + low) + (high - low) % 2)) 0 with
        hneg | hzero | hpos
      · rw [if_neg (by omega), if_pos hneg]
        obtain ⟨F, L, heq, hb1, hb2⟩ :=
          ih low (cDiv2 (high + low) + (high - low) % 2 - 1) flag h0
            (by omega) (by omega)
        exact ⟨F, L, heq, by omega, by omega⟩
      · rw [if_pos hzero]
        by_cases hmh : cDiv2 (high + low) + (high - low) % 2 = high
        · rw [if_pos hmh]
          exact ⟨true, cDiv2 (high + low) + (high - low) % 2, rfl, by omega,
            by omega⟩
        · rw [if_neg hmh]
          have hlm : low < cDiv2 (high + low) + (high - low) % 2 :=
            hm3 (by omega)
          obtain ⟨F, L, heq, hb1, hb2⟩ :=
            ih (cDiv2 (high + low) + (high - low) % 2) high true (by omega)
              (by omega) (by omega)
          exact ⟨F, L, heq, by omega, by omega⟩
      · rw [if_neg (by omega), if_neg (by omega)]
        obtain ⟨F, L, heq, hb1, hb2⟩ :=
          ih (cDiv2 (high + low) + (high - low) % 2 + 1) high flag (by omega)
            (by omega) (by omega)
        exact ⟨F, L, heq, by omega, by omega⟩
    · exact ⟨flag, low, highLoop_exit c (n + 1) low high flag (by omega),
        le_refl _, by omega⟩

/-- C6: for every window into the sequence (`0 ≤ low`, any `high`) and every
comparator, i.e. every possible sequence of negative/zero/positive results,
the loops of both `DTCMP_Search_local_low_binary` and
`DTCMP_Search_local_high_binary` terminate: both searches return a result
within one loop iteration per window element. -/
theorem claim_C6 (c : Int → Int) (low high : Int) (h0 : 0 ≤ low) :
    (DTCMP_Search_local_low_binary c low high).isSome ∧
      (DTCMP_Search_local_high_binary c low high).isSome := by
  constructor
  · by_cases hlh : low - 1 ≤ high
    · obtain ⟨F, H, heq, -, -⟩ :=
        lowLoop_some c (high + 1 - low).toNat low high false h0 hlh (le_refl _)
      simp [DTCMP_Search_local_low_binary, heq]
    · simp [DTCMP_Search_local_low_binary,
        lowLoop_exit c _ low high false (by omega)]
  · by_cases hlh : low - 1 ≤ high
    · obtain ⟨F, L, heq, -, -⟩ :=
        highLoop_some c (high + 1 - low).toNat low high false h0 hlh (le_refl _)
      simp [DTCMP_Search_local_high_binary, heq]
    · simp [DTCMP_Search_local_high_binary,
        highLoop_exit c _ low high false (by omega)]

/-- Witness for C6 at a concrete window and comparator. -/
theorem claim_C6_witness :
    (DTCMP_Search_local_low_binary (fun _ => 0) 0 5).isSome ∧
      (DTCMP_Search_local_high_binary (fun _ => 0) 0 5).isSome :=
  claim_C6 (fun _ => 0) 0 5 (by decide)

/-! ### Empty windows (C5) and the missing `num == 0` guard (C4) -/

/-- C5 (amended): for every initially empty window (`low > high`), the
lower-bound search returns `found = false` and `index = high + 1` (which
equals `low` exactly in the canonical empty-window case `low = high + 1`). -/
theorem claim_C5 (c : Int → Int) (low high : Int) (h : high < low) :
    DTCMP_Search_local_low_binary c low high =
      some (DTCMP_SUCCESS, false, high + 1) := by
  simp [DTCMP_Search_local_low_binary, lowLoop_exit c _ low high false h]

/-- Witness for C5 (amended) at the concrete empty window `[5, 0]`. -/
theorem claim_C5_witness :
    DTCMP_Search_local_low_binary (fun _ => 0) 5 0 =
      some (DTCMP_SUCCESS, false, 1) := by
  have h := claim_C5 (fun _ => 0) 5 0 (by decide)
  simpa using h

/-- Counterexample to C5 as stated: on the empty window `low = 5`,
`high = 0` the code returns index `high + 1 = 1`, not `low = 5`. -/
theorem claim_C5_cex :
    DTCMP_Search_local_low_binary (fun _ => 0) 5 0 = some (0, false, 1) ∧
      (1 : Int) ≠ 5 := by
  constructor
  · decide
  · decide

/-- C4: evaluation of the batched search at `num = 0` (window `[0, 0]`,
single-element sequence, all keys `0`).  The code does not return
immediately: it still runs the median search for `targets[0]` and performs
the out-of-range write `indicies[0] = 0`, so the returned write log is
`[(0, 0)]` rather than empty. -/
theorem claim_C4 :
    DTCMP_Search_local_low_list_binary (fun t => listCmp t [0]) (fun _ => 0)
      0 0 0 0 = some (0, [(0, 0)]) := by
  decide

/-! ### Uniform success status (C8) -/

/-- Whenever the batched search returns, its status component is the literal
`0` that the source returns. -/
theorem lowListAux_status (cfun : Int → Int → Int) (ts : Nat → Int) :
    ∀ (fuel num off : Nat) (low high : Int) (s : Int)
      (log : List (Nat × Int)),
      lowListAux cfun ts fuel num off low high = some (s, log) → s = 0 := by
  intro fuel
  induction fuel with
  | zero => intro num off low high s log h; simp [lowListAux] at h
  | succ n ih =>
    intro num off low high s log h
    rw [lowListAux] at h
    rcases hm : DTCMP_Search_local_low_binary
        (cfun (ts (off + num / 2))) low high with _ | r
    · rw [hm] at h; simp at h
    · rw [hm] at h
      simp only at h
      rcases hl : (if 0 < num / 2 then
          lowListAux cfun ts n (num / 2) off low
            (if high < r.2.2 then high else r.2.2)
        else some (0, [])) with _ | l
      · rw [hl] at h; simp at h
      · rcases hr : (if 0 < num - (num / 2 + 1) then
            lowListAux cfun ts n (num - (num / 2 + 1)) (off + num / 2 + 1)
              (if high < r.2.2 then high else r.2.2) high
          else some (0, [])) with _ | rr
        · rw [hl, hr] at h; simp at h
        · rw [hl, hr] at h
          simp at h
          exact h.1.symm

/-- C8: every call to any of the three operations that returns at all
returns the same uniform success status `DTCMP_SUCCESS`; no input produces
a distinct error code. -/
theorem claim_C8 (c : Int → Int) (cfun : Int → Int → Int) (ts : Nat → Int)
    (low high : Int) (num off : Nat) :
    (DTCMP_Search_local_low_binary c low high).map (fun r => r.1) =
      (DTCMP_Search_local_low_binary c low high).map
        (fun _ => DTCMP_SUCCESS) ∧
    (DTCMP_Search_local_high_binary c low high).map (fun r => r.1) =
      (DTCMP_Search_local_high_binary c low high).map
        (fun _ => DTCMP_SUCCESS) ∧
    (DTCMP_Search_local_low_list_binary cfun ts num off low high).map
        (fun r => r.1) =
      (DTCMP_Search_local_low_list_binary cfun ts num off low high).map
        (fun _ => DTCMP_SUCCESS) := by
  refine ⟨?_, ?_, ?_⟩
  · cases h : lowLoop c (high + 1 - low).toNat low high false <;>
      simp [DTCMP_Search_local_low_binary, h]
  · cases h : highLoop c (high + 1 - low).toNat low high false <;>
      simp [DTCMP_Search_local_high_binary, h]
  · cases h : DTCMP_Search_local_low_list_binary cfun ts num off low high with
    | none => simp [h]
    | some r =>
      have hs : r.1 = 0 := by
        have := lowListAux_status cfun ts (num + 1) num off low high r.1 r.2
        exact this (by simpa [DTCMP_Search_local_low_list_binary] using h)
      simp [h, hs, DTCMP_SUCCESS]

/-! ### The comparator view of a sorted sequence -/

theorem cmpKeys_nonpos (t k : Int) : cmpKeys t k ≤ 0 ↔ t ≤ k := by
  unfold cmpKeys; split_ifs <;> omega

theorem cmpKeys_neg (t k : Int) : cmpKeys t k < 0 ↔ t < k := by
  unfold cmpKeys; split_ifs <;> omega

theorem cmpKeys_zero (t k : Int) : cmpKeys t k = 0 ↔ k = t := by
  unfold cmpKeys; split_ifs <;> simp <;> omega

theorem cmpKeys_pos (t k : Int) : 0 < cmpKeys t k ↔ k < t := by
  unfold cmpKeys; split_ifs <;> omega

/-- Keys of a sorted list are monotone in the index. -/
theorem sorted_getD_mono (S : List Int) (hS : S.Sorted (· ≤ ·))
    (i j : Nat) (hij : i ≤ j) (hj : j < S.length) :
    S.getD i 0 ≤ S.getD j 0 := by
  rcases eq_or_lt_of_le hij with rfl | hlt
  · exact le_refl _
  · rw [List.getD_eq_getElem _ _ (by omega), List.getD_eq_getElem _ _ hj]
    exact List.pairwise_iff_getElem.mp hS i j (by omega) hj hlt

/-- A sorted sequence induces monotone comparator results on any window of
valid indices. -/
theorem listCmp_mono (t : Int) (S : List Int) (hS : S.Sorted (· ≤ ·))
    (low0 high0 : Int) (h0 : 0 ≤ low0) (hN : high0 < S.length) :
    CmpMono (listCmp t S) low0 high0 := by
  intro i j hi hij hj
  have hkey : S.getD i.toNat 0 ≤ S.getD j.toNat 0 :=
    sorted_getD_mono S hS i.toNat j.toNat (by omega) (by omega)
  unfold listCmp
  constructor
  · intro h
    rw [cmpKeys_nonpos] at h ⊢
    omega
  · intro h
    rw [cmpKeys_neg] at h ⊢
    omega

/-! ### Properties of the specification-level scans -/

theorem lbScan_eq_of (p : Int → Bool) :
    ∀ (n : Nat) (low d : Int), low ≤ d → d ≤ low + n →
      (∀ i, low ≤ i → i < d → p i = false) →
      (d < low + n → p d = true) →
      lbScan p low n = d := by
  intro n
  induction n with
  | zero =>
    intro low d h1 h2 _ _
    have : d = low := by omega
    simp [lbScan, this]
  | succ m ih =>
    intro low d h1 h2 hbelow hhit
    by_cases hp : p low = true
    · have hd : d = low := by
        by_contra hne
        exact absurd hp (by simp [hbelow low (le_refl _) (by omega)])
      simp [lbScan, hp, hd]
    · have hd : low < d := by
        rcases eq_or_lt_of_le h1 with rfl | h
        · exact absurd (hhit (by omega)) hp
        · exact h
      have : lbScan p low (m + 1) = lbScan p (low + 1) m := by
        simp [lbScan, hp]
      rw [this]
      exact ih (low + 1) d (by omega) (by omega)
        (fun i hi hid => hbelow i (by omega) hid)
        (fun h => hhit (by omega))

theorem lbScan_bounds (p : Int → Bool) :
    ∀ (n : Nat) (low : Int), low ≤ lbScan p low n ∧ lbScan p low n ≤ low + n := by
  intro n
  induction n with
  | zero => intro low; simp [lbScan]
  | succ m ih =>
    intro low
    by_cases hp : p low = true
    · simp [lbScan, hp]; omega
    · have h := ih (low + 1)
      simp only [lbScan, hp, if_false, Bool.false_eq_true] at *
      omega

theorem lbScan_le_of_hit (p : Int → Bool) :
    ∀ (n : Nat) (low k : Int), low ≤ k → k < low + n → p k = true →
      lbScan p low n ≤ k := by
  intro n
  induction n with
  | zero => intro low k h1 h2 _; omega
  | succ m ih =>
    intro low k h1 h2 hk
    by_cases hp : p low = true
    · simp [lbScan, hp]; omega
    · have hlk : low < k := by
        rcases eq_or_lt_of_le h1 with rfl | h
        · exact absurd hk hp
        · exact h
      have h := ih (low + 1) k (by omega) (by omega) hk
      simp only [lbScan, hp, if_false, Bool.false_eq_true]
      omega

theorem ubScan_eq_of (p : Int → Bool) :
    ∀ (n : Nat) (high d : Int), high - n ≤ d → d ≤ high →
      (∀ i, d < i → i ≤ high → p i = false) →
      (high - n < d → p d = true) →
      ubScan p high n = d := by
  intro n
  induction n with
  | zero =>
    intro high d h1 h2 _ _
    have : d = high := by omega
    simp [ubScan, this]
  | succ m ih =>
    intro high d h1 h2 habove hhit
    by_cases hp : p high = true
    · have hd : d = high := by
        by_contra hne
        exact absurd hp (by simp [habove high (by omega) (le_refl _)])
      simp [ubScan, hp, hd]
    · have hd : d < high := by
        rcases eq_or_lt_of_le h2 with rfl | h
        · exact absurd (hhit (by omega)) hp
        · exact h
      have : ubScan p high (m + 1) = ubScan p (high - 1) m := by
        simp [ubScan, hp]
      rw [this]
      exact ih (high - 1) d (by omega) (by omega)
        (fun i hid hi => habove i hid (by omega))
        (fun h => hhit (by omega))

theorem ubScan_bounds (p : Int → Bool) :
    ∀ (n : Nat) (high : Int),
      high - n ≤ ubScan p high n ∧ ubScan p high n ≤ high := by
  intro n
  induction n with
  | zero => intro high; simp [ubScan]
  | succ m ih =>
    intro high
    by_cases hp : p high = true
    · simp [ubScan, hp]; omega
    · have h := ih (high - 1)
      simp only [ubScan, hp, if_false, Bool.false_eq_true] at *
      omega

theorem ubScan_ge_of_hit (p : Int → Bool) :
    ∀ (n : Nat) (high k : Int), high - n < k → k ≤ high → p k = true →
      k ≤ ubScan p high n := by
  intro n
  induction n with
  | zero => intro high k h1 h2 _; omega
  | succ m ih =>
    intro high k h1 h2 hk
    by_cases hp : p high = true
    · simp [ubScan, hp]; omega
    · have hkh : k < high := by
        rcases eq_or_lt_of_le h2 with rfl | h
        · exact absurd hk hp
        · exact h
      have h := ih (high - 1) k (by omega) (by omega) hk
      simp only [ubScan, hp, if_false, Bool.false_eq_true]
      omega

/-! ### The search loops on a monotone comparator -/

/-- Invariant-based characterisation of the lower-search loop on a window
`[low0, high0]` whose comparator results are monotone (sorted sequence).
The loop finishes and its final `flag`/`high` pin down the leftmost
position with non-positive comparator result. -/
theorem lowLoop_sorted (c : Int → Int) (low0 high0 : Int) (h00 : 0 ≤ low0)
    (hsa : CmpMono c low0 high0) :
    ∀ (fuel : Nat) (low high : Int) (flag : Bool),
      low0 ≤ low → high ≤ high0 → low - 1 ≤ high →
      (∀ i, low0 ≤ i → i < low → 0 < c i) →
      (flag = true → c high = 0 ∧ low ≤ high) →
      (flag = false → ∀ i, high < i → i ≤ high0 → c i < 0) →
      (high + 1 - low).toNat ≤ fuel →
      ∃ F H, lowLoop c fuel low high flag = some (F, H) ∧
        low0 - 1 ≤ H ∧ H ≤ high0 ∧
        (F = true → c H = 0 ∧ low0 ≤ H ∧
          ∀ i, low0 ≤ i → i < H → 0 < c i) ∧
        (F = false → (∀ i, low0 ≤ i → i ≤ H → 0 < c i) ∧
          (∀ i, H < i → i ≤ high0 → c i < 0)) := by
  intro fuel
  induction fuel with
  | zero =>
    intro low high flag hl hh hlh hbelow hflag hnf hf
    have hexit : high < low := by omega
    cases flag with
    | true => exact absurd (hflag rfl).2 (by omega)
    | false =>
      refine ⟨false, high, lowLoop_exit c 0 low high false hexit, by omega,
        by omega, by simp, fun _ => ⟨?_, hnf rfl⟩⟩
      intro i hi hih
      exact hbelow i hi (by omega)
  | succ n ih =>
    intro low high flag hl hh hlh hbelow hflag hnf hf
    by_cases hcase : low ≤ high
    · obtain ⟨hm1, hm2, hm3⟩ := lowMid_bounds low high (by omega) hcase
      rw [lowLoop_succ c n low high flag hcase]
      rcases lt_trichotomy (c (cDiv2 (high + low))) 0 with hneg | hzero | hpos
      · rw [if_neg (by omega), if_pos hneg]
        cases flag with
        | true =>
          have h1 := (hflag rfl).1
          have h2 := (hsa (cDiv2 (high + low)) high (by omega) hm2
            (by omega)).2 hneg
          omega
        | false =>
          refine ih low (cDiv2 (high + low) - 1) false hl (by omega)
            (by omega) hbelow (by simp) ?_ (by omega)
          intro _ i hi1 hi2
          by_cases hih : i ≤ high
          · exact (hsa (cDiv2 (high + low)) i (by omega) (by omega)
              (by omega)).2 hneg
          · exact hnf rfl i (by omega) hi2
      · rw [if_pos hzero]
        by_cases hlm : low = cDiv2 (high + low)
        · rw [if_pos hlm]
          refine ⟨true, cDiv2 (high + low), rfl, by omega, by omega,
            fun _ => ⟨hzero, by omega, ?_⟩, by simp⟩
          intro i hi hih
          exact hbelow i hi (by omega)
        · rw [if_neg hlm]
          have hmh : cDiv2 (high + low) < high := hm3 (by omega)
          exact ih low (cDiv2 (high + low)) true hl (by omega) (by omega)
            hbelow (fun _ => ⟨hzero, by omega⟩) (by simp) (by omega)
      · rw [if_neg (by omega), if_neg (by omega)]
        have hbelow' : ∀ i, low0 ≤ i → i < cDiv2 (high + low) + 1 → 0 < c i := by
          intro i hi hih
          by_cases hil : i < low
          · exact hbelow i hi hil
          · by_contra hc
            have := (hsa i (cDiv2 (high + low)) hi (by omega) (by omega)).1
              (by omega)
            omega
        refine ih (cDiv2 (high + low) + 1) high flag (by omega) hh ?_ hbelow'
          (fun hfl => ⟨(hflag hfl).1, ?_⟩) (fun hfl => hnf hfl) (by omega)
        · omega
        · have h1 := (hflag hfl).1
          have : cDiv2 (high + low) ≠ high := by
            intro he
            rw [he] at hpos
            omega
          omega
    · have hexit : high < low := by omega
      cases flag with
      | true => exact absurd (hflag rfl).2 (by omega)
      | false =>
        refine ⟨false, high, lowLoop_exit c (n + 1) low high false hexit,
          by omega, by omega, by simp, fun _ => ⟨?_, hnf rfl⟩⟩
        intro i hi hih
        exact hbelow i hi (by omega)

/-- Invariant-based characterisation of the upper-search loop on a window
`[low0, high0]` whose comparator results are monotone (sorted sequence).
The loop finishes and its final `flag`/`low` pin down the rightmost
position with non-negative comparator result. -/
theorem highLoop_sorted (c : Int → Int) (low0 high0 : Int) (h00 : 0 ≤ low0)
    (hsa : CmpMono c low0 high0) :
    ∀ (fuel : Nat) (low high : Int) (flag : Bool),
      low0 ≤ low → high ≤ high0 → low - 1 ≤ high →
      (∀ i, high < i → i ≤ high0 → c i < 0) →
      (flag = true → c low = 0 ∧ low ≤ high) →
      (flag = false → ∀ i, low0 ≤ i → i < low → 0 < c i) →
      (high + 1 - low).toNat ≤ fuel →
      ∃ F L, highLoop c fuel low high flag = some (F, L) ∧
        low0 ≤ L ∧ L ≤ high0 + 1 ∧
        (F = true → c L = 0 ∧ L ≤ high0 ∧
          ∀ i, L < i → i ≤ high0 → c i < 0) ∧
        (F = false → (∀ i, low0 ≤ i → i < L → 0 < c i) ∧
          (∀ i, L ≤ i → i ≤ high0 → c i < 0)) := by
  intro fuel
  induction fuel with
  | zero =>
    intro low high flag hl hh hlh habove hflag hnf hf
    have hexit : high < low := by omega
    cases flag with
    | true => exact absurd (hflag rfl).2 (by omega)
    | false =>
      refine ⟨false, low, highLoop_exit c 0 low high false hexit, by omega,
        by omega, by simp, fun _ => ⟨hnf rfl, ?_⟩⟩
      intro i hi1 hi2
      exact habove i (by omega) hi2
  | succ n ih =>
    intro low high flag hl hh hlh habove hflag hnf hf
    by_cases hcase : low ≤ high
    · obtain ⟨hm1, hm2, hm3⟩ := highMid_bounds low high (by omega) hcase
      rw [highLoop_succ c n low high flag hcase]
      rcases lt_trichotomy (c (cDiv2 (high + low) + (high - low) % 2)) 0 with
        hneg | hzero | hpos
      · rw [if_neg (by omega), if_pos hneg]
        have habove' : ∀ i, cDiv2 (high + low) + (high - low) % 2 - 1 < i →
            i ≤ high0 → c i < 0 := by
          intro i hi1 hi2
          by_cases hih : i ≤ high
          · exact (hsa (cDiv2 (high + low) + (high - low) % 2) i (by omega)
              (by omega) (by omega)).2 hneg
          · exact habove i (by omega) hi2
        refine ih low (cDiv2 (high + low) + (high - low) % 2 - 1) flag hl
          (by omega) ?_ habove' (fun hfl => ⟨(hflag hfl).1, ?_⟩)
          (fun hfl => hnf hfl) (by omega)
        · omega
        · have h1 := (hflag hfl).1
          have : cDiv2 (high + low) + (high - low) % 2 ≠ low := by
            intro he
            rw [he] at hneg
            omega
          omega
      · rw [if_pos hzero]
        by_cases hmh : cDiv2 (high + low) + (high - low) % 2 = high
        · rw [if_pos hmh]
          refine ⟨true, cDiv2 (high + low) + (high - low) % 2, rfl, by omega,
            by omega, fun _ => ⟨hzero, by omega, ?_⟩, by simp⟩
          intro i hi1 hi2
          exact habove i (by omega) hi2
        · rw [if_neg hmh]
          have hlm : low < cDiv2 (high + low) + (high - low) % 2 :=
            hm3 (by omega)
          exact ih (cDiv2 (high + low) + (high - low) % 2) high true (by omega)
            hh (by omega) habove (fun _ => ⟨hzero, by omega⟩) (by simp)
            (by omega)
      · rw [if_neg (by omega), if_neg (by omega)]
        cases flag with
        | true =>
          have h1 := (hflag rfl).1
          have h2 := (hsa low (cDiv2 (high + low) + (high - low) % 2) (by omega)
            (by omega) (by omega)).1 (by omega)
          omega
        | false =>
          refine ih (cDiv2 (high + low) + (high - low) % 2 + 1) high false
            (by omega) hh (by omega) habove (by simp) ?_ (by omega)
          intro _ i hi1 hi2
          by_cases hil : i < low
          · exact hnf rfl i hi1 hil
          · by_contra hc
            have := (hsa i (cDiv2 (high + low) + (high - low) % 2) hi1
              (by omega) (by omega)).1 (by omega)
            omega
    · have hexit : high < low := by omega
      cases flag with
      | true => exact absurd (hflag rfl).2 (by omega)
      | false =>
        refine ⟨false, low, highLoop_exit c (n + 1) low high false hexit,
          by omega, by omega, by simp, fun _ => ⟨hnf rfl, ?_⟩⟩
        intro i hi1 hi2
        exact habove i (by omega) hi2

/-! ### Sign conversions between comparator results and scan predicates -/

theorem listCmp_pos_false (t : Int) (S : List Int) (i : Int)
    (h : 0 < listCmp t S i) : decide (t ≤ S.getD i.toNat 0) = false := by
  unfold listCmp at h
  rw [cmpKeys_pos] at h
  simp only [decide_eq_false_iff_not]
  omega

theorem listCmp_neg_true (t : Int) (S : List Int) (i : Int)
    (h : listCmp t S i < 0) : decide (t ≤ S.getD i.toNat 0) = true := by
  unfold listCmp at h
  rw [cmpKeys_neg] at h
  simp only [decide_eq_true_eq]
  omega

theorem listCmp_zero_eq (t : Int) (S : List Int) (i : Int)
    (h : listCmp t S i = 0) : S.getD i.toNat 0 = t := by
  unfold listCmp at h
  exact (cmpKeys_zero t _).mp h

theorem listCmp_neg_false (t : Int) (S : List Int) (i : Int)
    (h : listCmp t S i < 0) : decide (S.getD i.toNat 0 ≤ t) = false := by
  unfold listCmp at h
  rw [cmpKeys_neg] at h
  simp only [decide_eq_false_iff_not]
  omega

theorem listCmp_pos_true (t : Int) (S : List Int) (i : Int)
    (h : 0 < listCmp t S i) : decide (S.getD i.toNat 0 ≤ t) = true := by
  unfold listCmp at h
  rw [cmpKeys_pos] at h
  simp only [decide_eq_true_eq]
  omega

/-! ### The single searches against the specification indices -/

/-- On a sorted sequence and a valid window, the lower-bound search returns
exactly the specification lower-bound index, and its flag reports whether
that index is an in-window exact match. -/
theorem low_binary_sorted (t : Int) (S : List Int) (hS : S.Sorted (· ≤ ·))
    (low high : Int) (h0 : 0 ≤ low) (hlh : low - 1 ≤ high)
    (hN : high < S.length) :
    ∃ F, DTCMP_Search_local_low_binary (listCmp t S) low high =
        some (DTCMP_SUCCESS, F, lowerBoundIndex t S low high) ∧
      (F = true ↔ lowerBoundIndex t S low high ≤ high ∧
        S.getD (lowerBoundIndex t S low high).toNat 0 = t) := by
  have hn : low + ((high + 1 - low).toNat : Int) = high + 1 := by omega
  by_cases hcase : low ≤ high
  · obtain ⟨F, H, heq, hb1, hb2, htrue, hfalse⟩ :=
      lowLoop_sorted (listCmp t S) low high h0
        (listCmp_mono t S hS low high h0 hN)
        (high + 1 - low).toNat low high false (le_refl _) (le_refl _) hlh
        (fun i h1 h2 => absurd h1 (by omega))
        (by simp)
        (fun _ i h1 h2 => absurd h1 (by omega))
        (le_refl _)
    cases F with
    | true =>
      obtain ⟨hcH, hlH, hbelowH⟩ := htrue rfl
      have hlb : lowerBoundIndex t S low high = H := by
        refine lbScan_eq_of _ _ low H (by omega) (by omega) ?_ ?_
        · intro i hi1 hi2
          exact listCmp_pos_false t S i (hbelowH i hi1 hi2)
        · intro _
          simp only [decide_eq_true_eq]
          rw [listCmp_zero_eq t S H hcH]
      refine ⟨true, ?_, ?_⟩
      · rw [DTCMP_Search_local_low_binary, heq, hlb]
        rfl
      · simp only [true_iff]
        exact ⟨by omega, by rw [hlb]; exact listCmp_zero_eq t S H hcH⟩
    | false =>
      obtain ⟨hpos_below, hneg_above⟩ := hfalse rfl
      have hlb : lowerBoundIndex t S low high = H + 1 := by
        refine lbScan_eq_of _ _ low (H + 1) (by omega) (by omega) ?_ ?_
        · intro i hi1 hi2
          exact listCmp_pos_false t S i (hpos_below i hi1 (by omega))
        · intro hh
          exact listCmp_neg_true t S (H + 1) (hneg_above (H + 1) (by omega)
            (by omega))
      refine ⟨false, ?_, ?_⟩
      · rw [DTCMP_Search_local_low_binary, heq, hlb]
        rfl
      · simp only [Bool.false_eq_true, false_iff, not_and]
        intro hle heq2
        have := hneg_above (H + 1) (by omega) (by omega)
        rw [hlb] at heq2
        have := listCmp_neg_false t S (H + 1) this
        simp only [decide_eq_false_iff_not] at this
        exact this (le_of_eq heq2)
  · have hlow : low = high + 1 := by omega
    have hn0 : (high + 1 - low).toNat = 0 := by omega
    have hlb : lowerBoundIndex t S low high = low := by
      rw [lowerBoundIndex, hn0]
      rfl
    refine ⟨false, ?_, ?_⟩
    · rw [DTCMP_Search_local_low_binary, hn0,
        lowLoop_exit (listCmp t S) 0 low high false (by omega), hlb]
      simp [hlow]
    · simp only [Bool.false_eq_true, false_iff, not_and]
      intro hle
      omega

/-- On a sorted sequence and a valid window, the upper-bound search returns
exactly the specification upper-bound index, and its flag reports whether
that index is an in-window exact match. -/
theorem high_binary_sorted (t : Int) (S : List Int) (hS : S.Sorted (· ≤ ·))
    (low high : Int) (h0 : 0 ≤ low) (hlh : low - 1 ≤ high)
    (hN : high < S.length) :
    ∃ F, DTCMP_Search_local_high_binary (listCmp t S) low high =
        some (DTCMP_SUCCESS, F, upperBoundIndex t S low high) ∧
      (F = true ↔ low ≤ upperBoundIndex t S low high ∧
        S.getD (upperBoundIndex t S low high).toNat 0 = t) := by
  have hn : high - ((high + 1 - low).toNat : Int) = low - 1 := by omega
  by_cases hcase : low ≤ high
  · obtain ⟨F, L, heq, hb1, hb2, htrue, hfalse⟩ :=
      highLoop_sorted (listCmp t S) low high h0
        (listCmp_mono t S hS low high h0 hN)
        (high + 1 - low).toNat low high false (le_refl _) (le_refl _) hlh
        (fun i h1 h2 => absurd h1 (by omega))
        (by simp)
        (fun _ i h1 h2 => absurd h1 (by omega))
        (le_refl _)
    cases F with
    | true =>
      obtain ⟨hcL, hLh, haboveL⟩ := htrue rfl
      have hub : upperBoundIndex t S low high = L := by
        refine ubScan_eq_of _ _ high L (by omega) (by omega) ?_ ?_
        · intro i hi1 hi2
          exact listCmp_neg_false t S i (haboveL i hi1 hi2)
        · intro _
          simp only [decide_eq_true_eq]
          rw [listCmp_zero_eq t S L hcL]
      refine ⟨true, ?_, ?_⟩
      · rw [DTCMP_Search_local_high_binary, heq, hub]
        rfl
      · simp only [true_iff]
        exact ⟨by omega, by rw [hub]; exact listCmp_zero_eq t S L hcL⟩
    | false =>
      obtain ⟨hpos_below, hneg_above⟩ := hfalse rfl
      have hub : upperBoundIndex t S low high = L - 1 := by
        refine ubScan_eq_of _ _ high (L - 1) (by omega) (by omega) ?_ ?_
        · intro i hi1 hi2
          exact listCmp_neg_false t S i (hneg_above i (by omega) hi2)
        · intro hh
          exact listCmp_pos_true t S (L - 1) (hpos_below (L - 1) (by omega)
            (by omega))
      refine ⟨false, ?_, ?_⟩
      · rw [DTCMP_Search_local_high_binary, heq, hub]
        rfl
      · simp only [Bool.false_eq_true, false_iff, not_and]
        intro hle heq2
        have hcc := hpos_below (L - 1) (by omega) (by omega)
        have := listCmp_pos_false t S (L - 1) hcc
        simp only [decide_eq_false_iff_not] at this
        rw [hub] at heq2
        exact this (le_of_eq heq2.symm)
  · have hlow : low = high + 1 := by omega
    have hn0 : (high + 1 - low).toNat = 0 := by omega
    have hub : upperBoundIndex t S low high = high := by
      rw [upperBoundIndex, hn0]
      rfl
    refine ⟨false, ?_, ?_⟩
    · rw [DTCMP_Search_local_high_binary, hn0,
        highLoop_exit (listCmp t S) 0 low high false (by omega), hub]
      simp [hlow]
    · simp only [Bool.false_eq_true, false_iff, not_and]
      intro hle
      omega

theorem lbScan_hit (p : Int → Bool) :
    ∀ (n : Nat) (low : Int), lbScan p low n < low + n →
      p (lbScan p low n) = true := by
  intro n
  induction n with
  | zero => intro low h; simp [lbScan] at h
  | succ m ih =>
    intro low h
    by_cases hp : p low = true
    · simp [lbScan, hp]
    · have he : lbScan p low (m + 1) = lbScan p (low + 1) m := by
        simp [lbScan, hp]
      rw [he] at h ⊢
      exact ih (low + 1) (by omega)

theorem ubScan_hit (p : Int → Bool) :
    ∀ (n : Nat) (high : Int), high - n < ubScan p high n →
      p (ubScan p high n) = true := by
  intro n
  induction n with
  | zero => intro high h; simp [ubScan] at h
  | succ m ih =>
    intro high h
    by_cases hp : p high = true
    · simp [ubScan, hp]
    · have he : ubScan p high (m + 1) = ubScan p (high - 1) m := by
        simp [ubScan, hp]
      rw [he] at h ⊢
      exact ih (high - 1) (by omega)

/-- Membership of an in-range default-read element. -/
theorem getD_mem_of (S : List Int) (k : Nat) (hk : k < S.length) :
    S.getD k 0 ∈ S := by
  rw [List.getD_eq_getElem _ _ hk]
  exact List.getElem_mem _

/-- On a sorted sequence, the lower-bound flag over the full window reports
exactly whether the target occurs in the sequence. -/
theorem lower_flag_mem (t : Int) (S : List Int) (hS : S.Sorted (· ≤ ·))
    (F : Bool)
    (hiff : F = true ↔ lowerBoundIndex t S 0 ((S.length : Int) - 1) ≤
        (S.length : Int) - 1 ∧
      S.getD (lowerBoundIndex t S 0 ((S.length : Int) - 1)).toNat 0 = t) :
    (F = true ↔ t ∈ S) := by
  have hb := lbScan_bounds (fun i => decide (t ≤ S.getD i.toNat 0))
    (((S.length : Int) - 1) + 1 - 0).toNat 0
  rw [hiff]
  constructor
  · rintro ⟨h1, h2⟩
    rw [← h2]
    exact getD_mem_of S _ (by
      rw [lowerBoundIndex] at h1 ⊢
      omega)
  · intro hm
    obtain ⟨k, hk, hkt⟩ := List.mem_iff_getElem.mp hm
    have hpk : (fun i => decide (t ≤ S.getD i.toNat 0)) (k : Int) = true := by
      simp only [decide_eq_true_eq, Int.toNat_natCast]
      rw [List.getD_eq_getElem _ _ hk, hkt]
    have hle : lowerBoundIndex t S 0 ((S.length : Int) - 1) ≤ (k : Int) := by
      rw [lowerBoundIndex]
      exact lbScan_le_of_hit _ _ 0 (k : Int) (by omega) (by omega) hpk
    have hlt : lowerBoundIndex t S 0 ((S.length : Int) - 1) <
        0 + ((((S.length : Int) - 1) + 1 - 0).toNat : Int) := by omega
    have hhit := lbScan_hit (fun i => decide (t ≤ S.getD i.toNat 0))
      ((((S.length : Int) - 1) + 1 - 0).toNat) 0 (by rw [lowerBoundIndex] at hlt; exact hlt)
    rw [← lowerBoundIndex] at hhit
    simp only [decide_eq_true_eq] at hhit
    refine ⟨by omega, le_antisymm ?_ hhit⟩
    calc S.getD (lowerBoundIndex t S 0 ((S.length : Int) - 1)).toNat 0
        ≤ S.getD k 0 := sorted_getD_mono S hS _ k (by omega) hk
      _ = t := by rw [List.getD_eq_getElem _ _ hk, hkt]

/-- On a sorted sequence, the upper-bound flag over the full window reports
exactly whether the target occurs in the sequence. -/
theorem upper_flag_mem (t : Int) (S : List Int) (hS : S.Sorted (· ≤ ·))
    (F : Bool)
    (hiff : F = true ↔ 0 ≤ upperBoundIndex t S 0 ((S.length : Int) - 1) ∧
      S.getD (upperBoundIndex t S 0 ((S.length : Int) - 1)).toNat 0 = t) :
    (F = true ↔ t ∈ S) := by
  have hb := ubScan_bounds (fun i => decide (S.getD i.toNat 0 ≤ t))
    (((S.length : Int) - 1) + 1 - 0).toNat ((S.length : Int) - 1)
  rw [hiff]
  constructor
  · rintro ⟨h1, h2⟩
    rw [← h2]
    exact getD_mem_of S _ (by
      rw [upperBoundIndex] at h1 ⊢
      omega)
  · intro hm
    obtain ⟨k, hk, hkt⟩ := List.mem_iff_getElem.mp hm
    have hpk : (fun i => decide (S.getD i.toNat 0 ≤ t)) (k : Int) = true := by
      simp only [decide_eq_true_eq, Int.toNat_natCast]
      rw [List.getD_eq_getElem _ _ hk, hkt]
    have hge : (k : Int) ≤ upperBoundIndex t S 0 ((S.length : Int) - 1) := by
      rw [upperBoundIndex]
      exact ubScan_ge_of_hit _ _ ((S.length : Int) - 1) (k : Int) (by omega)
        (by omega) hpk
    have hgt : (S.length : Int) - 1 -
        (((((S.length : Int) - 1) + 1 - 0).toNat : Int)) <
        upperBoundIndex t S 0 ((S.length : Int) - 1) := by omega
    have hhit := ubScan_hit (fun i => decide (S.getD i.toNat 0 ≤ t))
      ((((S.length : Int) - 1) + 1 - 0).toNat) ((S.length : Int) - 1)
      (by rw [upperBoundIndex] at hgt; exact hgt)
    rw [← upperBoundIndex] at hhit
    simp only [decide_eq_true_eq] at hhit
    refine ⟨by omega, le_antisymm hhit ?_⟩
    calc (t : Int) = S.getD k 0 := by rw [List.getD_eq_getElem _ _ hk, hkt]
      _ ≤ S.getD (upperBoundIndex t S 0 ((S.length : Int) - 1)).toNat 0 :=
          sorted_getD_mono S hS k _ (by omega) (by
            rw [upperBoundIndex]
            omega)

/-- C2: on a sorted sequence `S` of length `N` and any target `t`, the
lower-bound search over the full window `[0, N - 1]` returns the smallest
index `i` with `S[i] ≥ t` (`N` if none, which is what `lowerBoundIndex`
computes), and `found = true` exactly when that index satisfies `i < N` and
`S[i] = t`. -/
theorem claim_C2 (t : Int) (S : List Int) (hS : S.Sorted (· ≤ ·)) :
    DTCMP_Search_local_low_binary (listCmp t S) 0 ((S.length : Int) - 1) =
      some (DTCMP_SUCCESS,
        decide (lowerBoundIndex t S 0 ((S.length : Int) - 1) <
            (S.length : Int) ∧
          S.getD (lowerBoundIndex t S 0 ((S.length : Int) - 1)).toNat 0 = t),
        lowerBoundIndex t S 0 ((S.length : Int) - 1)) := by
  obtain ⟨F, heq, hiff⟩ := low_binary_sorted t S hS 0 ((S.length : Int) - 1)
    (by omega) (by omega) (by omega)
  rw [heq]
  have hiff2 : F = true ↔
      (lowerBoundIndex t S 0 ((S.length : Int) - 1) < (S.length : Int) ∧
        S.getD (lowerBoundIndex t S 0 ((S.length : Int) - 1)).toNat 0 = t) := by
    rw [hiff]
    constructor
    · rintro ⟨h1, h2⟩; exact ⟨by omega, h2⟩
    · rintro ⟨h1, h2⟩; exact ⟨by omega, h2⟩
  cases F with
  | true => rw [decide_eq_true (hiff2.mp rfl)]
  | false =>
    rw [decide_eq_false (fun hp => by simpa using hiff2.mpr hp)]

/-- Witness for C2 on the spec example `S = [2,4,4,4,7]`, `t = 4`:
lower bound `(true, 1)`. -/
theorem claim_C2_witness :
    DTCMP_Search_local_low_binary (listCmp 4 [2, 4, 4, 4, 7]) 0
      (((([2, 4, 4, 4, 7] : List Int).length : Int)) - 1) =
      some (DTCMP_SUCCESS, true, 1) := by
  have h := claim_C2 4 [2, 4, 4, 4, 7] (by decide)
  exact h.trans (by decide)

/-- C3: on a sorted sequence `S` of length `N` and any target `t`, the
upper-bound search over the full window `[0, N - 1]` returns the largest
index `i` with `S[i] ≤ t` (`-1` if none, which is what `upperBoundIndex`
computes), and its found flag equals the found flag of the lower-bound
search; both are true exactly when `t` occurs in `S`. -/
theorem claim_C3 (t : Int) (S : List Int) (hS : S.Sorted (· ≤ ·)) :
    (DTCMP_Search_local_high_binary (listCmp t S) 0
        ((S.length : Int) - 1)).map (fun r => r.2.2) =
      some (upperBoundIndex t S 0 ((S.length : Int) - 1)) ∧
    (DTCMP_Search_local_high_binary (listCmp t S) 0
        ((S.length : Int) - 1)).map (fun r => r.2.1) =
      (DTCMP_Search_local_low_binary (listCmp t S) 0
        ((S.length : Int) - 1)).map (fun r => r.2.1) ∧
    (DTCMP_Search_local_high_binary (listCmp t S) 0
        ((S.length : Int) - 1)).map (fun r => r.2.1) =
      some (decide (t ∈ S)) := by
  obtain ⟨Fh, heqh, hiffh⟩ := high_binary_sorted t S hS 0
    ((S.length : Int) - 1) (by omega) (by omega) (by omega)
  obtain ⟨Fl, heql, hiffl⟩ := low_binary_sorted t S hS 0
    ((S.length : Int) - 1) (by omega) (by omega) (by omega)
  have hmem_h : Fh = true ↔ t ∈ S := upper_flag_mem t S hS Fh hiffh
  have hmem_l : Fl = true ↔ t ∈ S := lower_flag_mem t S hS Fl hiffl
  refine ⟨?_, ?_, ?_⟩
  · rw [heqh]
    rfl
  · rw [heqh, heql]
    simp only [Option.map_some']
    have : Fh = Fl := by
      cases Fh with
      | true => exact (hmem_l.mpr (hmem_h.mp rfl)).symm
      | false =>
        cases Fl with
        | true => exact absurd (hmem_h.mpr (hmem_l.mp rfl)) (by simp)
        | false => rfl
    rw [this]
  · rw [heqh]
    simp only [Option.map_some']
    cases Fh with
    | true => rw [decide_eq_true (hmem_h.mp rfl)]
    | false => rw [decide_eq_false (fun hm => by simpa using hmem_h.mpr hm)]

/-- Witness for C3 on the spec example `S = [2,4,4,4,7]`, `t = 4`:
upper bound index `3`, found flags both true. -/
theorem claim_C3_witness :
    (DTCMP_Search_local_high_binary (listCmp 4 [2, 4, 4, 4, 7]) 0
        (((([2, 4, 4, 4, 7] : List Int).length : Int)) - 1)).map
      (fun r => r.2.2) = some 3 ∧
    (DTCMP_Search_local_high_binary (listCmp 4 [2, 4, 4, 4, 7]) 0
        (((([2, 4, 4, 4, 7] : List Int).length : Int)) - 1)).map
      (fun r => r.2.1) = some true := by
  have h := claim_C3 4 [2, 4, 4, 4, 7] (by decide)
  exact ⟨h.1.trans (by decide), (h.2.2).trans (by decide)⟩

/-! ### Probe indices stay inside the window (C9) -/

/-- The instrumented lower loop computes the same result as the loop. -/
theorem lowLoopTrace_res (c : Int → Int) :
    ∀ (fuel : Nat) (low high : Int) (flag : Bool),
      (lowLoopTrace c fuel low high flag).2 = lowLoop c fuel low high flag := by
  intro fuel
  induction fuel with
  | zero => intro low high flag; rfl
  | succ n ih =>
    intro low high flag
    by_cases hcase : low ≤ high
    · simp only [lowLoop, lowLoopTrace, hcase, if_true]
      split_ifs <;> simp [ih]
    · simp [lowLoop, lowLoopTrace, hcase]

/-- The instrumented upper loop computes the same result as the loop. -/
theorem highLoopTrace_res (c : Int → Int) :
    ∀ (fuel : Nat) (low high : Int) (flag : Bool),
      (highLoopTrace c fuel low high flag).2 =
        highLoop c fuel low high flag := by
  intro fuel
  induction fuel with
  | zero => intro low high flag; rfl
  | succ n ih =>
    intro low high flag
    by_cases hcase : low ≤ high
    · simp only [highLoop, highLoopTrace, hcase, if_true]
      split_ifs <;> simp [ih]
    · simp [highLoop, highLoopTrace, hcase]

/-- Every probe of the lower loop lies inside the current window. -/
theorem lowLoopTrace_sub (c : Int → Int) :
    ∀ (fuel : Nat) (low high : Int) (flag : Bool), 0 ≤ low →
      ∀ m ∈ (lowLoopTrace c fuel low high flag).1, low ≤ m ∧ m ≤ high := by
  intro fuel
  induction fuel with
  | zero => intro low high flag h0 m hm; simp [lowLoopTrace] at hm
  | succ n ih =>
    intro low high flag h0 m hm
    by_cases hcase : low ≤ high
    · obtain ⟨hm1, hm2, hm3⟩ := lowMid_bounds low high h0 hcase
      simp only [lowLoopTrace, hcase, if_true] at hm
      split_ifs at hm with h1 h2 h3
      · simp at hm
        omega
      · simp at hm
        rcases hm with rfl | hm
        · omega
        · have := ih low (cDiv2 (high + low)) true h0 m hm
          omega
      · simp at hm
        rcases hm with rfl | hm
        · omega
        · have := ih low (cDiv2 (high + low) - 1) flag h0 m hm
          omega
      · simp at hm
        rcases hm with rfl | hm
        · omega
        · have := ih (cDiv2 (high + low) + 1) high flag (by omega) m hm
          omega
    · simp [lowLoopTrace, hcase] at hm
  
/-- Every probe of the upper loop lies inside the current window. -/
theorem highLoopTrace_sub (c : Int → Int) :
    ∀ (fuel : Nat) (low high : Int) (flag : Bool), 0 ≤ low →
      ∀ m ∈ (highLoopTrace c fuel low high flag).1, low ≤ m ∧ m ≤ high := by
  intro fuel
  induction fuel with
  | zero => intro low high flag h0 m hm; simp [highLoopTrace] at hm
  | succ n ih =>
    intro low high flag h0 m hm
    by_cases hcase : low ≤ high
    · obtain ⟨hm1, hm2, hm3⟩ := highMid_bounds low high h0 hcase
      simp only [highLoopTrace, hcase, if_true] at hm
      split_ifs at hm with h1 h2 h3
      · simp at hm
        omega
      · simp at hm
        rcases hm with rfl | hm
        · omega
        · have := ih (cDiv2 (high + low) + (high - low) % 2) high true
            (by omega) m hm
          omega
      · simp at hm
        rcases hm with rfl | hm
        · omega
        · have := ih low (cDiv2 (high + low) + (high - low) % 2 - 1) flag h0
            m hm
          omega
      · simp at hm
        rcases hm with rfl | hm
        · omega
        · have := ih (cDiv2 (high + low) + (high - low) % 2 + 1) high flag
            (by omega) m hm
          omega
    · simp [highLoopTrace, hcase] at hm

/-- C9: on a window with `0 ≤ low ≤ high`, every index probed by either
search — every record passed to the comparator — lies inside the
caller-supplied window `[low, high]`; the instrumented runs whose probes are
collected compute exactly the actual search results. -/
theorem claim_C9 (c : Int → Int) (low high : Int) (h0 : 0 ≤ low)
    (hlh : low ≤ high) :
    (∀ m ∈ lowProbes c low high, low ≤ m ∧ m ≤ high) ∧
    (∀ m ∈ highProbes c low high, low ≤ m ∧ m ≤ high) ∧
    (lowLoopTrace c (high + 1 - low).toNat low high false).2 =
      lowLoop c (high + 1 - low).toNat low high false ∧
    (highLoopTrace c (high + 1 - low).toNat low high false).2 =
      highLoop c (high + 1 - low).toNat low high false :=
  ⟨fun m hm => lowLoopTrace_sub c _ low high false h0 m hm,
   fun m hm => highLoopTrace_sub c _ low high false h0 m hm,
   lowLoopTrace_res c _ low high false,
   highLoopTrace_res c _ low high false⟩

/-- Witness for C9 at the window `[0, 2]` and a concrete comparator. -/
theorem claim_C9_witness :
    (∀ m ∈ lowProbes (fun i => 1 - i) 0 2, (0 : Int) ≤ m ∧ m ≤ 2) ∧
    (∀ m ∈ highProbes (fun i => 1 - i) 0 2, (0 : Int) ≤ m ∧ m ≤ 2) ∧
    (lowLoopTrace (fun i => 1 - i) ((2 : Int) + 1 - 0).toNat 0 2 false).2 =
      lowLoop (fun i => 1 - i) ((2 : Int) + 1 - 0).toNat 0 2 false ∧
    (highLoopTrace (fun i => 1 - i) ((2 : Int) + 1 - 0).toNat 0 2 false).2 =
      highLoop (fun i => 1 - i) ((2 : Int) + 1 - 0).toNat 0 2 false :=
  claim_C9 (fun i => 1 - i) 0 2 (by decide) (by decide)

/-! ### Write positions of the batched search (C10) -/

/-- Every completed batched call with `num ≥ 1` targets writes exactly the
output cells `off, off + 1, …, off + num - 1`, each exactly once. -/
theorem lowListAux_fst_perm (cfun : Int → Int → Int) (ts : Nat → Int) :
    ∀ (fuel num off : Nat) (low high : Int) (s : Int)
      (log : List (Nat × Int)), 1 ≤ num →
      lowListAux cfun ts fuel num off low high = some (s, log) →
      (log.map Prod.fst).Perm (List.range' off num) := by
  intro fuel
  induction fuel with
  | zero => intro num off low high s log h1 h; simp [lowListAux] at h
  | succ n ih =>
    intro num off low high s log h1 h
    rw [lowListAux] at h
    rcases hm : DTCMP_Search_local_low_binary (cfun (ts (off + num / 2)))
        low high with _ | r
    · rw [hm] at h; simp at h
    · rw [hm] at h
      simp only at h
      rcases hl : (if 0 < num / 2 then
          lowListAux cfun ts n (num / 2) off low
            (if high < r.2.2 then high else r.2.2)
        else some (0, [])) with _ | l
      · rw [hl] at h; simp at h
      · rcases hr : (if 0 < num - (num / 2 + 1) then
            lowListAux cfun ts n (num - (num / 2 + 1)) (off + num / 2 + 1)
              (if high < r.2.2 then high else r.2.2) high
          else some (0, [])) with _ | rr
        · rw [hl, hr] at h; simp at h
        · rw [hl, hr] at h
          simp only [Option.some_inj, Prod.mk.injEq] at h
          obtain ⟨hs, hlog⟩ := h
          have hperml : (l.2.map Prod.fst).Perm (List.range' off (num / 2)) := by
            by_cases hmid : 0 < num / 2
            · rw [if_pos hmid] at hl
              exact ih (num / 2) off low (if high < r.2.2 then high else r.2.2)
                l.1 l.2 hmid (by rw [hl])
            · rw [if_neg hmid] at hl
              have : l = ((0 : Int), ([] : List (Nat × Int))) := by
                injection hl with h'
                exact h'.symm
              rw [this]
              have : num / 2 = 0 := by omega
              rw [this]
              rfl
          have hpermr : (rr.2.map Prod.fst).Perm
              (List.range' (off + num / 2 + 1) (num - (num / 2 + 1))) := by
            by_cases hcnt : 0 < num - (num / 2 + 1)
            · rw [if_pos hcnt] at hr
              exact ih (num - (num / 2 + 1)) (off + num / 2 + 1)
                (if high < r.2.2 then high else r.2.2) high rr.1 rr.2 hcnt
                (by rw [hr])
            · rw [if_neg hcnt] at hr
              have : rr = ((0 : Int), ([] : List (Nat × Int))) := by
                injection hr with h'
                exact h'.symm
              rw [this]
              have : num - (num / 2 + 1) = 0 := by omega
              rw [this]
              rfl
          rw [← hlog]
          simp only [List.map_cons, List.map_append]
          have hsplit : List.range' off num =
              List.range' off (num / 2) ++
                List.range' (off + num / 2) (num - (num / 2 + 1) + 1) := by
            rw [List.range'_append_1]
            congr 1
            omega
          rw [hsplit, List.range'_succ]
          refine List.Perm.trans ?_ List.perm_middle.symm
          exact List.Perm.cons _ (List.Perm.append hperml (by
            have : off + num / 2 + 1 = off + num / 2 + 1 := rfl
            exact hpermr))
  
/-- C10: every call to the batched search with `num ≥ 1` that returns has
written each output cell `indices[j]`, `j ∈ [0, num)`, exactly once and no
cell outside `[0, num)`: the written positions are a permutation of
`0, …, num - 1`.  (The targets and the sequence enter the model only as
read-only functions, so the embedding makes their mutation impossible.) -/
theorem claim_C10 (cfun : Int → Int → Int) (ts : Nat → Int) (num : Nat)
    (low high : Int) (s : Int) (log : List (Nat × Int)) (h1 : 1 ≤ num)
    (h : DTCMP_Search_local_low_list_binary cfun ts num 0 low high =
      some (s, log)) :
    (log.map Prod.fst).Perm (List.range num) := by
  rw [List.range_eq_range']
  exact lowListAux_fst_perm cfun ts (num + 1) num 0 low high s log h1
    (by rw [← DTCMP_Search_local_low_list_binary]; exact h)

/-- Witness for C10 on the batched spec example (`S = [2,4,4,4,7]`,
`T = [1,4,9]`): written positions `[1, 0, 2]`, a permutation of `0,1,2`. -/
theorem claim_C10_witness :
    (([(1, 1), (0, 0), (2, 5)] : List (Nat × Int)).map Prod.fst).Perm
      (List.range 3) :=
  claim_C10 (fun t => listCmp t [2, 4, 4, 4, 7]) (fun j => [1, 4, 9].getD j 0)
    3 0 4 0 [(1, 1), (0, 0), (2, 5)] (by decide) (by decide)

/-! ### The batched recursion step (C7) -/

/-- The fuel argument of `lowListAux` is irrelevant as soon as it exceeds
`num`: the recursion is the one of the source, driven by `num` alone. -/
theorem lowListAux_fuel (cfun : Int → Int → Int) (ts : Nat → Int) :
    ∀ (fuel fuel' num off : Nat) (low high : Int), num < fuel →
      num < fuel' →
      lowListAux cfun ts fuel num off low high =
        lowListAux cfun ts fuel' num off low high := by
  intro fuel
  induction fuel with
  | zero => intro fuel' num off low high h1 h2; omega
  | succ n ih =>
    intro fuel' num off low high h1 h2
    cases fuel' with
    | zero => omega
    | succ n' =>
      conv_lhs => rw [lowListAux]
      conv_rhs => rw [lowListAux]
      rcases hm : DTCMP_Search_local_low_binary (cfun (ts (off + num / 2)))
          low high with _ | r
      · rfl
      · simp only
        have hL : (if 0 < num / 2 then
              lowListAux cfun ts n (num / 2) off low
                (if high < r.2.2 then high else r.2.2)
            else some (0, [])) =
            (if 0 < num / 2 then
              lowListAux cfun ts n' (num / 2) off low
                (if high < r.2.2 then high else r.2.2)
            else some (0, [])) := by
          by_cases hmid : 0 < num / 2
          · rw [if_pos hmid, if_pos hmid]
            exact ih n' (num / 2) off low _ (by omega) (by omega)
          · rw [if_neg hmid, if_neg hmid]
        have hR : (if 0 < num - (num / 2 + 1) then
              lowListAux cfun ts n (num - (num / 2 + 1)) (off + num / 2 + 1)
                (if high < r.2.2 then high else r.2.2) high
            else some (0, [])) =
            (if 0 < num - (num / 2 + 1) then
              lowListAux cfun ts n' (num - (num / 2 + 1)) (off + num / 2 + 1)
                (if high < r.2.2 then high else r.2.2) high
            else some (0, [])) := by
          by_cases hcnt : 0 < num - (num / 2 + 1)
          · rw [if_pos hcnt, if_pos hcnt]
            exact ih n' (num - (num / 2 + 1)) (off + num / 2 + 1) _ high
              (by omega) (by omega)
          · rw [if_neg hcnt, if_neg hcnt]
        rw [hL, hR]

/-- C7: one step of the batched recursion.  When the median-target search
returns `r`, the batched search stores the unclamped index `r.2.2` at
`indices[off + mid]` (the head of the write log) — it may equal `high + 1` —
while the index clamped to at most `high` is used as the upper window bound
`[low, clamped]` of the left-half recursion and as the lower window bound
`[clamped, high]` of the right-half recursion. -/
theorem claim_C7 (cfun : Int → Int → Int) (ts : Nat → Int) (num off : Nat)
    (low high : Int) (r : Int × Bool × Int) (h1 : 1 ≤ num)
    (hm : DTCMP_Search_local_low_binary (cfun (ts (off + num / 2))) low high =
      some r) :
    DTCMP_Search_local_low_list_binary cfun ts num off low high =
      (match
        (if 0 < num / 2 then
          DTCMP_Search_local_low_list_binary cfun ts (num / 2) off low
            (if high < r.2.2 then high else r.2.2)
        else some (0, [])),
        (if 0 < num - (num / 2 + 1) then
          DTCMP_Search_local_low_list_binary cfun ts (num - (num / 2 + 1))
            (off + num / 2 + 1) (if high < r.2.2 then high else r.2.2) high
        else some (0, [])) with
      | some l, some rr => some (0, (off + num / 2, r.2.2) :: (l.2 ++ rr.2))
      | _, _ => none) := by
  conv_lhs => rw [DTCMP_Search_local_low_list_binary, lowListAux, hm]
  simp only
  have hL : (if 0 < num / 2 then
        lowListAux cfun ts num (num / 2) off low
          (if high < r.2.2 then high else r.2.2)
      else some (0, [])) =
      (if 0 < num / 2 then
        DTCMP_Search_local_low_list_binary cfun ts (num / 2) off low
          (if high < r.2.2 then high else r.2.2)
      else some (0, [])) := by
    by_cases hmid : 0 < num / 2
    · rw [if_pos hmid, if_pos hmid, DTCMP_Search_local_low_list_binary]
      exact lowListAux_fuel cfun ts num (num / 2 + 1) (num / 2) off low _
        (by omega) (by omega)
    · rw [if_neg hmid, if_neg hmid]
  have hR : (if 0 < num - (num / 2 + 1) then
        lowListAux cfun ts num (num - (num / 2 + 1)) (off + num / 2 + 1)
          (if high < r.2.2 then high else r.2.2) high
      else some (0, [])) =
      (if 0 < num - (num / 2 + 1) then
        DTCMP_Search_local_low_list_binary cfun ts (num - (num / 2 + 1))
          (off + num / 2 + 1) (if high < r.2.2 then high else r.2.2) high
      else some (0, [])) := by
    by_cases hcnt : 0 < num - (num / 2 + 1)
    · rw [if_pos hcnt, if_pos hcnt, DTCMP_Search_local_low_list_binary]
      exact lowListAux_fuel cfun ts num (num - (num / 2 + 1) + 1)
        (num - (num / 2 + 1)) (off + num / 2 + 1) _ high (by omega) (by omega)
    · rw [if_neg hcnt, if_neg hcnt]
  rw [hL, hR]

/-- Witness for C7: three targets `5` against the one-element sequence `[0]`
on the window `[0, 0]`.  The median search returns index `1 = high + 1`,
which is stored unclamped at position `1`, while both recursions run on the
clamped window bound `0` and store `1` at positions `0` and `2`. -/
theorem claim_C7_witness :
    DTCMP_Search_local_low_list_binary (fun t => listCmp t [0]) (fun _ => 5)
      3 0 0 0 = some (0, [(1, 1), (0, 1), (2, 1)]) := by
  have h := claim_C7 (fun t => listCmp t [0]) (fun _ => 5) 3 0 0 0
    (0, false, 1) (by decide) (by decide)
  exact h.trans (by decide)

/-! ### Pinning lemmas for the lower-bound index (batched search, C1) -/

theorem lowerBoundIndex_bounds (t : Int) (S : List Int) (low high : Int)
    (hlh : low - 1 ≤ high) :
    low ≤ lowerBoundIndex t S low high ∧
      lowerBoundIndex t S low high ≤ high + 1 := by
  have h := lbScan_bounds (fun i => decide (t ≤ S.getD i.toNat 0))
    (high + 1 - low).toNat low
  rw [lowerBoundIndex]
  omega

theorem lowerBoundIndex_below (t : Int) (S : List Int) (low high : Int)
    (hlh : low - 1 ≤ high) :
    ∀ i, low ≤ i → i < lowerBoundIndex t S low high →
      decide (t ≤ S.getD i.toNat 0) = false := by
  intro i h1 h2
  have hb := lowerBoundIndex_bounds t S low high hlh
  cases hpi : decide (t ≤ S.getD i.toNat 0) with
  | false => rfl
  | true =>
    have := lbScan_le_of_hit (fun k => decide (t ≤ S.getD k.toNat 0))
      (high + 1 - low).toNat low i h1 (by omega) hpi
    rw [← lowerBoundIndex] at this
    omega

theorem lowerBoundIndex_hit (t : Int) (S : List Int) (low high : Int)
    (hlh : low - 1 ≤ high) (h : lowerBoundIndex t S low high ≤ high) :
    decide (t ≤ S.getD (lowerBoundIndex t S low high).toNat 0) = true := by
  have := lbScan_hit (fun k => decide (t ≤ S.getD k.toNat 0))
    (high + 1 - low).toNat low (by rw [lowerBoundIndex] at h; omega)
  rw [← lowerBoundIndex] at this
  exact this

/-- The lower-bound index is monotone in the target. -/
theorem lowerBoundIndex_mono (t t' : Int) (S : List Int) (low high : Int)
    (hlh : low - 1 ≤ high) (htt : t ≤ t') :
    lowerBoundIndex t S low high ≤ lowerBoundIndex t' S low high := by
  by_contra hc
  push_neg at hc
  have hb := lowerBoundIndex_bounds t S low high hlh
  have hb' := lowerBoundIndex_bounds t' S low high hlh
  have hhit := lowerBoundIndex_hit t' S low high hlh (by omega)
  have hbelow := lowerBoundIndex_below t S low high hlh
    (lowerBoundIndex t' S low high) (by omega) hc
  simp only [decide_eq_true_eq] at hhit
  simp only [decide_eq_false_iff_not] at hbelow
  omega

/-- Shrinking the window's right boundary to the clamped lower-bound index
of a larger target does not change the lower-bound index of a smaller
target. -/
theorem lowerBoundIndex_pin_left (t t' : Int) (S : List Int) (low high : Int)
    (hlh : low ≤ high) (htt : t ≤ t') :
    lowerBoundIndex t S low
        (if high < lowerBoundIndex t' S low high then high
         else lowerBoundIndex t' S low high) =
      lowerBoundIndex t S low high := by
  have hb' := lowerBoundIndex_bounds t' S low high (by omega)
  have hb := lowerBoundIndex_bounds t S low high (by omega)
  have hmono := lowerBoundIndex_mono t t' S low high (by omega) htt
  by_cases hcl : high < lowerBoundIndex t' S low high
  · rw [if_pos hcl]
  · rw [if_neg hcl]
    refine lbScan_eq_of _ _ low (lowerBoundIndex t S low high) (by omega)
      (by omega) ?_ ?_
    · intro i h1 h2
      exact lowerBoundIndex_below t S low high (by omega) i h1 h2
    · intro hh
      exact lowerBoundIndex_hit t S low high (by omega) (by omega)

/-- Shrinking the window's left boundary to the clamped lower-bound index
of a smaller target does not change the lower-bound index of a larger
target. -/
theorem lowerBoundIndex_pin_right (t t' : Int) (S : List Int) (low high : Int)
    (hlh : low ≤ high) (htt : t' ≤ t) :
    lowerBoundIndex t S
        (if high < lowerBoundIndex t' S low high then high
         else lowerBoundIndex t' S low high) high =
      lowerBoundIndex t S low high := by
  have hb' := lowerBoundIndex_bounds t' S low high (by omega)
  have hb := lowerBoundIndex_bounds t S low high (by omega)
  have hmono := lowerBoundIndex_mono t' t S low high (by omega) htt
  by_cases hcl : high < lowerBoundIndex t' S low high
  · rw [if_pos hcl]
    have hd : lowerBoundIndex t S low high = high + 1 := by omega
    have hph : decide (t ≤ S.getD high.toNat 0) = false := by
      have h1 : decide (t' ≤ S.getD high.toNat 0) = false :=
        lowerBoundIndex_below t' S low high (by omega) high (by omega)
          (by omega)
      simp only [decide_eq_false_iff_not] at h1 ⊢
      omega
    have hn1 : (high + 1 - high).toNat = 1 := by omega
    have hstep : lbScan (fun i => decide (t ≤ S.getD i.toNat 0)) high 1 =
        lbScan (fun i => decide (t ≤ S.getD i.toNat 0)) (high + 1) 0 := by
      simp only [lbScan]
      rw [hph]
      simp
    rw [hd, lowerBoundIndex, hn1, hstep]
    rfl
  · rw [if_neg hcl]
    refine lbScan_eq_of _ _ (lowerBoundIndex t' S low high)
      (lowerBoundIndex t S low high) (by omega) (by omega) ?_ ?_
    · intro i h1 h2
      exact lowerBoundIndex_below t S low high (by omega) i (by omega) h2
    · intro hh
      exact lowerBoundIndex_hit t S low high (by omega) (by omega)

/-! ### Replaying the write log (C1) -/

theorem applyWrites_cons (e : Nat × Int) (rest : List (Nat × Int))
    (a : Nat → Int) :
    applyWrites (e :: rest) a = applyWrites rest (Function.update a e.1 e.2) :=
  rfl

theorem applyWrites_frame :
    ∀ (log : List (Nat × Int)) (a : Nat → Int) (j : Nat),
      j ∉ log.map Prod.fst → applyWrites log a j = a j := by
  intro log
  induction log with
  | nil => intro a j _; rfl
  | cons e rest ih =>
    intro a j h
    simp only [List.map_cons, List.mem_cons] at h
    push_neg at h
    rw [applyWrites_cons, ih _ _ h.2]
    exact Function.update_noteq h.1 _ _

theorem applyWrites_of_mem :
    ∀ (log : List (Nat × Int)) (a : Nat → Int) (j : Nat) (v : Int),
      (j, v) ∈ log → (log.map Prod.fst).Nodup → applyWrites log a j = v := by
  intro log
  induction log with
  | nil => intro a j v hm _; simp at hm
  | cons e rest ih =>
    intro a j v hm hnd
    simp only [List.map_cons, List.nodup_cons] at hnd
    rcases List.mem_cons.mp hm with he | hrest
    · rw [applyWrites_cons, applyWrites_frame rest _ j (by
        rw [← he] at hnd
        exact hnd.1)]
      rw [← he]
      exact Function.update_same _ _ _
    · exact ih _ j v hrest hnd.2

/-! ### Values written by the batched search (C1) -/

/-- One unfolding step of the batched recursion, given the median search
result. -/
theorem lowListAux_step (cfun : Int → Int → Int) (ts : Nat → Int)
    (n num off : Nat) (low high : Int) (r : Int × Bool × Int)
    (hm : DTCMP_Search_local_low_binary (cfun (ts (off + num / 2))) low high =
      some r) :
    lowListAux cfun ts (n + 1) num off low high =
      (match
        (if 0 < num / 2 then
          lowListAux cfun ts n (num / 2) off low
            (if high < r.2.2 then high else r.2.2)
        else some (0, [])),
        (if 0 < num - (num / 2 + 1) then
          lowListAux cfun ts n (num - (num / 2 + 1)) (off + num / 2 + 1)
            (if high < r.2.2 then high else r.2.2) high
        else some (0, [])) with
      | some l, some rr => some (0, (off + num / 2, r.2.2) :: (l.2 ++ rr.2))
      | _, _ => none) := by
  conv_lhs => rw [lowListAux, hm]

/-- The batched search on a sorted sequence, sorted targets, and a valid
window completes and writes, for every target position `j` of the call, the
lower-bound index of `ts j` over the call's window. -/
theorem lowListAux_values (S : List Int) (hS : S.Sorted (· ≤ ·))
    (ts : Nat → Int) :
    ∀ (fuel num off : Nat) (low high : Int), num < fuel → 1 ≤ num →
      0 ≤ low → low ≤ high → high < S.length →
      (∀ i j : Nat, off ≤ i → i ≤ j → j < off + num → ts i ≤ ts j) →
      ∃ log, lowListAux (fun t => listCmp t S) ts fuel num off low high =
          some (0, log) ∧
        ∀ j : Nat, off ≤ j → j < off + num →
          (j, lowerBoundIndex (ts j) S low high) ∈ log := by
  intro fuel
  induction fuel with
  | zero => intro num off low high h _ _ _ _ _; omega
  | succ n ih =>
    intro num off low high hfuel hnum h0 hlh hN hsortT
    obtain ⟨F, heq, hiff⟩ := low_binary_sorted (ts (off + num / 2)) S hS low
      high h0 (by omega) hN
    rw [lowListAux_step (fun t => listCmp t S) ts n num off low high
      (DTCMP_SUCCESS, F, lowerBoundIndex (ts (off + num / 2)) S low high) heq]
    dsimp only
    set m := lowerBoundIndex (ts (off + num / 2)) S low high with hm
    have hmb := lowerBoundIndex_bounds (ts (off + num / 2)) S low high
      (by omega)
    rw [← hm] at hmb
    set cl := (if high < m then high else m : Int) with hcl
    have hclb : low ≤ cl ∧ cl ≤ high := by
      rw [hcl]
      split_ifs <;> omega
    have hleft : ∃ logl,
        (if 0 < num / 2 then
          lowListAux (fun t => listCmp t S) ts n (num / 2) off low cl
        else some (0, [])) = some (0, logl) ∧
        ∀ j : Nat, off ≤ j → j < off + num / 2 →
          (j, lowerBoundIndex (ts j) S low cl) ∈ logl := by
      by_cases hmid : 0 < num / 2
      · rw [if_pos hmid]
        exact ih (num / 2) off low cl (by omega) hmid h0 hclb.1
          (by omega) (fun i j hi hij hj => hsortT i j hi hij (by omega))
      · rw [if_neg hmid]
        exact ⟨[], rfl, fun j hj1 hj2 => absurd hj2 (by omega)⟩
    have hright : ∃ logr,
        (if 0 < num - (num / 2 + 1) then
          lowListAux (fun t => listCmp t S) ts n (num - (num / 2 + 1))
            (off + num / 2 + 1) cl high
        else some (0, [])) = some (0, logr) ∧
        ∀ j : Nat, off + num / 2 + 1 ≤ j →
          j < off + num / 2 + 1 + (num - (num / 2 + 1)) →
          (j, lowerBoundIndex (ts j) S cl high) ∈ logr := by
      by_cases hcnt : 0 < num - (num / 2 + 1)
      · rw [if_pos hcnt]
        exact ih (num - (num / 2 + 1)) (off + num / 2 + 1) cl high (by omega)
          hcnt (by omega) hclb.2 hN
          (fun i j hi hij hj => hsortT i j (by omega) hij (by omega))
      · rw [if_neg hcnt]
        exact ⟨[], rfl, fun j hj1 hj2 => absurd hj2 (by omega)⟩
    obtain ⟨logl, heql, hmeml⟩ := hleft
    obtain ⟨logr, heqr, hmemr⟩ := hright
    rw [heql, heqr]
    refine ⟨(off + num / 2, m) :: (logl ++ logr), rfl, ?_⟩
    intro j hj1 hj2
    rcases Nat.lt_trichotomy j (off + num / 2) with hjlt | hjeq | hjgt
    · have hpin := lowerBoundIndex_pin_left (ts j) (ts (off + num / 2)) S low
        high hlh (hsortT j (off + num / 2) hj1 (by omega) (by omega))
      rw [← hm, ← hcl] at hpin
      rw [← hpin]
      exact List.mem_cons_of_mem _ (List.mem_append_left _
        (hmeml j hj1 hjlt))
    · rw [hjeq]
      exact List.mem_cons_self _ _
    · have hpin := lowerBoundIndex_pin_right (ts j) (ts (off + num / 2)) S low
        high hlh (hsortT (off + num / 2) j (by omega) (by omega) hj2)
      rw [← hm, ← hcl] at hpin
      rw [← hpin]
      exact List.mem_cons_of_mem _ (List.mem_append_right _
        (hmemr j (by omega) (by omega)))

/-- C1 (amended): on a sorted sequence `S`, sorted targets `T` with
`num = T.length ≥ 1`, and a window into the sequence with `low ≤ high`
(`0 ≤ low`, `high < S.length`), the batched search completes and the output
array cell `j` afterwards holds, for every `j < num`, exactly the index that
the independent `DTCMP_Search_local_low_binary` of `T[j]` over the same
window `[low, high]` returns. -/
theorem claim_C1 (S T : List Int) (low high : Int) (a : Nat → Int)
    (hS : S.Sorted (· ≤ ·)) (hT : T.Sorted (· ≤ ·)) (hnum : 1 ≤ T.length)
    (h0 : 0 ≤ low) (hlh : low ≤ high) (hN : high < S.length) :
    ∀ j : Nat, j < T.length →
      (DTCMP_Search_local_low_list_binary (fun t => listCmp t S)
          (fun k => T.getD k 0) T.length 0 low high).map
        (fun p => applyWrites p.2 a j) =
      (DTCMP_Search_local_low_binary (listCmp (T.getD j 0) S) low high).map
        (fun r => r.2.2) := by
  have hsortT : ∀ i j : Nat, 0 ≤ i → i ≤ j → j < 0 + T.length →
      T.getD i 0 ≤ T.getD j 0 := by
    intro i j hi hij hj
    exact sorted_getD_mono T hT i j hij (by omega)
  obtain ⟨log, heqL, hmem⟩ := lowListAux_values S hS (fun k => T.getD k 0)
    (T.length + 1) T.length 0 low high (by omega) hnum h0 hlh hN hsortT
  intro j hj
  obtain ⟨F, heqS, hiffS⟩ := low_binary_sorted (T.getD j 0) S hS low high h0
    (by omega) hN
  rw [DTCMP_Search_local_low_list_binary, heqL, heqS]
  simp only [Option.map_some']
  congr 1
  have hnd : (log.map Prod.fst).Nodup := by
    have hperm := lowListAux_fst_perm (fun t => listCmp t S)
      (fun k => T.getD k 0) (T.length + 1) T.length 0 low high 0 log hnum heqL
    exact hperm.nodup_iff.mpr (List.nodup_range' 0 T.length 1 (by omega))
  exact applyWrites_of_mem log a j _ (hmem j (by omega) (by omega)) hnd

/-- Counterexample to C1 as stated: on the empty window `low = 1 > 0 = high`
(with `S = [0]`, `T = [0,0,0]` sorted), the batched search stores `0` at
`indices[2]` — its right-half recursion turns the empty window into the
non-empty window `[0, 0]` — while the independent lower-bound search of
`T[2]` over `[1, 0]` returns `1`. -/
theorem claim_C1_cex :
    (DTCMP_Search_local_low_list_binary (fun t => listCmp t [0])
        (fun k => [0, 0, 0].getD k 0) 3 0 1 0).map
      (fun p => applyWrites p.2 (fun _ => 7) 2) = some 0 ∧
    (DTCMP_Search_local_low_binary (listCmp ([0, 0, 0].getD 2 0) [0]) 1 0).map
      (fun r => r.2.2) = some 1 ∧
    (0 : Int) ≠ 1 := by
  refine ⟨?_, by decide, by decide⟩
  have h : DTCMP_Search_local_low_list_binary (fun t => listCmp t [0])
      (fun k => [0, 0, 0].getD k 0) 3 0 1 0 =
      some (0, [(1, 1), (0, 1), (2, 0)]) := by decide
  rw [h]
  simp only [Option.map_some']
  congr 1

/-- Witness for C1 (amended) on the batched spec example (`S = [2,4,4,4,7]`,
`T = [1,4,9]`, window `[0, 4]`), at target position `j = 1`. -/
theorem claim_C1_witness :
    (DTCMP_Search_local_low_list_binary (fun t => listCmp t [2, 4, 4, 4, 7])
        (fun k => [1, 4, 9].getD k 0) 3 0 0 4).map
      (fun p => applyWrites p.2 (fun _ => 7) 1) =
    (DTCMP_Search_local_low_binary (listCmp ([1, 4, 9].getD 1 0)
        [2, 4, 4, 4, 7]) 0 4).map
      (fun r => r.2.2) :=
  claim_C1 [2, 4, 4, 4, 7] [1, 4, 9] 0 4 (fun _ => 7) (by decide) (by decide)
    (by decide) (by decide) (by decide) (by decide) 1 (by decide)
